import Mathlib

/-!
Verification of the myfinbank research-pipeline core against its
natural-language specification.

The embedding below is a shallow model of the Python sources:

* `src/ai/consensus/merge_facts.py` — `merge` groups extracted facts by
  exact statement text, counts occurrences, collects the distinct sources
  of each group (a Python `set`) and scores confidence.
* `src/ai/validator/validate_sources.py` — `validate` filters search
  results by the broad trust policy: it takes the URL's network location
  (as `urllib.parse.urlparse` computes it), removes every occurrence of
  the substring `"www."` (Python's `str.replace("www.", "")` replaces all
  occurrences, not only a leading one) and keeps the result when any
  allowed domain occurs in it as a substring.
* `src/ai/normalize/normalize.py` — the pure post-processing of the
  extractor capability's output: split into lines, drop lines that are
  empty after `str.strip()`, pair each surviving line with its source.
* `src/ai/orchestrator/run_rag.py` — the module-level pipeline loop,
  modelled with the external search and extraction capabilities as
  function parameters and an uncaught Python exception as `Except.error`.

Python dictionaries iterate in insertion order, so the merge keys appear
in first-occurrence order; `dedupFirst` below realises that order.  The
model of `urlparse` covers the scheme/netloc splitting of CPython's
`urlsplit` (leading C0-control/space stripping, tab/CR/LF removal, scheme
detection, `//`-delimited netloc); it omits the `ValueError` cases for
unbalanced brackets in the host, which no claim here touches.
-/

/-- An extracted statement paired with the URL it came from
(`{"fact": ..., "source": ...}` in `normalize.py`). -/
structure ExtractedFact where
  fact : String
  source : String
deriving DecidableEq, Repr

/-- One merged consensus entry
(`{"fact": ..., "sources": ..., "confidence": ...}` in `merge_facts.py`). -/
structure MergedFact where
  fact : String
  sources : List String
  confidence : String
deriving DecidableEq, Repr

/-- Keep the first occurrence of each element, dropping later duplicates;
`seen` holds the elements already emitted.  This is the key order of a
Python dict built by insertion. -/
def dedupAux {α : Type} [DecidableEq α] (seen : List α) : List α → List α
  | [] => []
  | a :: t => if a ∈ seen then dedupAux seen t else a :: dedupAux (a :: seen) t

/-- First-occurrence deduplication of a list. -/
def dedupFirst {α : Type} [DecidableEq α] (l : List α) : List α :=
  dedupAux [] l

/-- The statement texts of a fact list, in order. -/
def factTexts (l : List ExtractedFact) : List String :=
  l.map (fun f => f.fact)

/-- Occurrence count of statement text `t` in the fact list: the value
`counter[t]` built by the first loop of `merge`. -/
def countOf (t : String) (l : List ExtractedFact) : Nat :=
  (l.filter (fun f => f.fact == t)).length

/-- The sources of the occurrences of statement text `t`, in input order
and with repetitions. -/
def rawSources (t : String) (l : List ExtractedFact) : List String :=
  (l.filter (fun f => f.fact == t)).map (fun f => f.source)

/-- The distinct sources of statement text `t`: the Python set
`sources[t]`, listed in first-insertion order. -/
def sourcesOf (t : String) (l : List ExtractedFact) : List String :=
  dedupFirst (rawSources t l)

/-- The confidence label of a group with occurrence count `countOf t l`:
`"high" if count > 1 else "medium"`. -/
def confOf (t : String) (l : List ExtractedFact) : String :=
  if 1 < countOf t l then "high" else "medium"

/-- `merge` from `src/ai/consensus/merge_facts.py`: one `MergedFact` per
distinct statement text, keys in first-occurrence order. -/
def merge (l : List ExtractedFact) : List MergedFact :=
  (dedupFirst (factTexts l)).map (fun t => ⟨t, sourcesOf t l, confOf t l⟩)

theorem mem_dedupAux {α : Type} [DecidableEq α] (a : α) :
    ∀ (l seen : List α), a ∈ dedupAux seen l ↔ a ∈ l ∧ a ∉ seen := by
  intro l
  induction l with
  | nil => intro seen; simp [dedupAux]
  | cons b t ih =>
    intro seen
    by_cases hb : b ∈ seen
    · simp only [dedupAux, if_pos hb, ih]
      constructor
      · rintro ⟨ha, hs⟩
        exact ⟨List.mem_cons_of_mem _ ha, hs⟩
      · rintro ⟨ha, hs⟩
        rcases List.mem_cons.mp ha with rfl | ha
        · exact absurd hb hs
        · exact ⟨ha, hs⟩
    · simp only [dedupAux, if_neg hb, List.mem_cons, ih]
      constructor
      · rintro (rfl | ⟨ha, hs⟩)
        · exact ⟨Or.inl rfl, hb⟩
        · exact ⟨Or.inr ha, fun hx => hs (Or.inr hx)⟩
      · rintro ⟨rfl | ha, hs⟩
        · exact Or.inl rfl
        · by_cases hab : a = b
          · exact Or.inl hab
          · exact Or.inr ⟨ha, by simp [List.mem_cons, hab, hs]⟩

theorem mem_dedupFirst {α : Type} [DecidableEq α] {a : α} {l : List α} :
    a ∈ dedupFirst l ↔ a ∈ l := by
  simp [dedupFirst, mem_dedupAux]

theorem nodup_dedupAux {α : Type} [DecidableEq α] :
    ∀ (l seen : List α), (dedupAux seen l).Nodup := by
  intro l
  induction l with
  | nil => intro seen; simp [dedupAux]
  | cons b t ih =>
    intro seen
    by_cases hb : b ∈ seen
    · simpa [dedupAux, if_pos hb] using ih seen
    · simp only [dedupAux, if_neg hb, List.nodup_cons]
      refine ⟨fun hmem => ?_, ih (b :: seen)⟩
      exact ((mem_dedupAux b t (b :: seen)).mp hmem).2 (List.mem_cons_self b seen)

theorem nodup_dedupFirst {α : Type} [DecidableEq α] (l : List α) :
    (dedupFirst l).Nodup :=
  nodup_dedupAux l []

theorem length_dedupAux_le {α : Type} [DecidableEq α] :
    ∀ (l seen : List α), (dedupAux seen l).length ≤ l.length := by
  intro l
  induction l with
  | nil => intro seen; simp [dedupAux]
  | cons b t ih =>
    intro seen
    by_cases hb : b ∈ seen
    · simp only [dedupAux, if_pos hb]
      exact Nat.le_succ_of_le (ih seen)
    · simp only [dedupAux, if_neg hb, List.length_cons]
      exact Nat.succ_le_succ (ih (b :: seen))

theorem length_dedupFirst_le {α : Type} [DecidableEq α] (l : List α) :
    (dedupFirst l).length ≤ l.length :=
  length_dedupAux_le l []

theorem mem_merge_iff (l : List ExtractedFact) (m : MergedFact) :
    m ∈ merge l ↔ ∃ t, t ∈ factTexts l ∧ m = ⟨t, sourcesOf t l, confOf t l⟩ := by
  simp only [merge, List.mem_map, mem_dedupFirst]
  constructor
  · rintro ⟨t, ht, rfl⟩; exact ⟨t, ht, rfl⟩
  · rintro ⟨t, ht, rfl⟩; exact ⟨t, ht, rfl⟩

theorem mem_rawSources (t : String) (l : List ExtractedFact) (s : String) :
    s ∈ rawSources t l ↔ ∃ f, f ∈ l ∧ f.fact = t ∧ f.source = s := by
  simp only [rawSources, List.mem_map, List.mem_filter, beq_iff_eq]
  constructor
  · rintro ⟨f, ⟨hf, hft⟩, rfl⟩; exact ⟨f, hf, hft, rfl⟩
  · rintro ⟨f, hf, hft, rfl⟩; exact ⟨f, ⟨hf, hft⟩, rfl⟩

/-- C1: `merge` groups the input pairs by exact, case-sensitive statement
text and emits exactly one `MergedFact` per group (the emitted texts are
duplicate-free and are exactly the texts occurring in the input); each
emitted fact's sources are precisely the distinct source identifiers of
its group, and its confidence is `"high"` when the group's occurrence
count exceeds 1 and `"medium"` otherwise (so n = 1 gives `"medium"`,
n = 2 gives `"high"`). -/
theorem merge_groups_correct (l : List ExtractedFact) :
    ((merge l).map (fun m => m.fact)).Nodup ∧
    (∀ t : String, (∃ m, m ∈ merge l ∧ m.fact = t) ↔ ∃ f, f ∈ l ∧ f.fact = t) ∧
    (∀ m, m ∈ merge l →
      (∀ s : String, s ∈ m.sources ↔ ∃ f, f ∈ l ∧ f.fact = m.fact ∧ f.source = s) ∧
      m.confidence = (if 1 < countOf m.fact l then "high" else "medium")) := by
  refine ⟨?_, ?_, ?_⟩
  · have hmap : (merge l).map (fun m => m.fact) = dedupFirst (factTexts l) := by
      simp [merge, List.map_map, Function.comp_def]
    rw [hmap]
    exact nodup_dedupFirst _
  · intro t
    constructor
    · rintro ⟨m, hm, rfl⟩
      obtain ⟨t', ht', rfl⟩ := (mem_merge_iff l m).mp hm
      simpa [factTexts] using ht'
    · rintro ⟨f, hf, rfl⟩
      refine ⟨⟨f.fact, sourcesOf f.fact l, confOf f.fact l⟩, ?_, rfl⟩
      exact (mem_merge_iff l _).mpr ⟨f.fact, List.mem_map_of_mem _ hf, rfl⟩
  · intro m hm
    obtain ⟨t, ht, rfl⟩ := (mem_merge_iff l m).mp hm
    refine ⟨fun s => ?_, rfl⟩
    show s ∈ dedupFirst (rawSources t l) ↔ _
    rw [mem_dedupFirst]
    exact mem_rawSources t l s

/-- The worked example of the specification: two statements, one repeated
across two sources. -/
def lC1 : List ExtractedFact :=
  [⟨"Next.js 14 uses the App Router", "a.com"⟩,
   ⟨"Next.js 14 uses the App Router", "b.com"⟩,
   ⟨"Edge runtime has limits", "a.com"⟩]

/-- Concrete instance of `merge_groups_correct` at the specification's
worked example, together with the fully evaluated merge output. -/
theorem merge_groups_correct_witness :
    merge lC1 = [⟨"Next.js 14 uses the App Router", ["a.com", "b.com"], "high"⟩,
                 ⟨"Edge runtime has limits", ["a.com"], "medium"⟩] ∧
    ((merge lC1).map (fun m => m.fact)).Nodup :=
  ⟨by decide, (merge_groups_correct lC1).1⟩

/-- Canonical order-insensitive view of a `MergedFact`: its text, its
sources as a finite set, and its confidence. -/
def mergedKey (m : MergedFact) : String × Finset String × String :=
  (m.fact, m.sources.toFinset, m.confidence)

/-- A merge output compared as an unordered set of canonical views. -/
def mergedSet (ml : List MergedFact) : Finset (String × Finset String × String) :=
  (ml.map mergedKey).toFinset

theorem toFinset_sourcesOf (t : String) (l : List ExtractedFact) :
    (sourcesOf t l).toFinset = (rawSources t l).toFinset := by
  ext s
  simp [sourcesOf, mem_dedupFirst]

theorem mem_mergedSet_merge (l : List ExtractedFact) (x : String × Finset String × String) :
    x ∈ mergedSet (merge l) ↔
      ∃ t, t ∈ factTexts l ∧ x = (t, (rawSources t l).toFinset, confOf t l) := by
  simp only [mergedSet, List.mem_toFinset, List.mem_map]
  constructor
  · rintro ⟨m, hm, rfl⟩
    obtain ⟨t, ht, rfl⟩ := (mem_merge_iff l m).mp hm
    exact ⟨t, ht, by simp [mergedKey, toFinset_sourcesOf]⟩
  · rintro ⟨t, ht, rfl⟩
    exact ⟨⟨t, sourcesOf t l, confOf t l⟩, (mem_merge_iff l _).mpr ⟨t, ht, rfl⟩,
      by simp [mergedKey, toFinset_sourcesOf]⟩

theorem countOf_perm (t : String) {l l' : List ExtractedFact} (h : l.Perm l') :
    countOf t l = countOf t l' :=
  (h.filter _).length_eq

theorem confOf_perm (t : String) {l l' : List ExtractedFact} (h : l.Perm l') :
    confOf t l = confOf t l' := by
  unfold confOf
  rw [countOf_perm t h]

theorem rawSources_toFinset_perm (t : String) {l l' : List ExtractedFact}
    (h : l.Perm l') :
    (rawSources t l).toFinset = (rawSources t l').toFinset := by
  ext s
  simp only [List.mem_toFinset]
  exact ((h.filter _).map _).mem_iff

/-- C2: `merge` is order-independent: permuting the input collection
leaves the output unchanged when merge outputs are compared as unordered
sets of (text, sources-as-set, confidence). -/
theorem merge_perm_invariant (l l' : List ExtractedFact) (h : l.Perm l') :
    mergedSet (merge l) = mergedSet (merge l') := by
  ext x
  rw [mem_mergedSet_merge, mem_mergedSet_merge]
  have hT : (factTexts l).Perm (factTexts l') := h.map _
  constructor
  · rintro ⟨t, ht, rfl⟩
    refine ⟨t, hT.mem_iff.mp ht, ?_⟩
    rw [rawSources_toFinset_perm t h, confOf_perm t h]
  · rintro ⟨t, ht, rfl⟩
    refine ⟨t, hT.mem_iff.mpr ht, ?_⟩
    rw [rawSources_toFinset_perm t h, confOf_perm t h]

/-- A three-element input and one of its permutations. -/
def lC2 : List ExtractedFact := [⟨"a", "s1"⟩, ⟨"b", "s2"⟩, ⟨"a", "s3"⟩]

/-- The permuted version of `lC2`. -/
def lC2b : List ExtractedFact := [⟨"b", "s2"⟩, ⟨"a", "s3"⟩, ⟨"a", "s1"⟩]

/-- Concrete instance of `merge_perm_invariant` on a permuted pair. -/
theorem merge_perm_invariant_witness :
    lC2.Perm lC2b ∧ mergedSet (merge lC2) = mergedSet (merge lC2b) :=
  ⟨by decide, merge_perm_invariant lC2 lC2b (by decide)⟩

/-- C3: every `MergedFact` emitted by `merge` has duplicate-free sources,
and no more sources than the occurrence count of its statement group. -/
theorem merge_sources_bound (l : List ExtractedFact) (m : MergedFact)
    (h : m ∈ merge l) :
    m.sources.Nodup ∧ m.sources.length ≤ countOf m.fact l := by
  obtain ⟨t, ht, rfl⟩ := (mem_merge_iff l m).mp h
  refine ⟨nodup_dedupFirst _, ?_⟩
  show (dedupFirst (rawSources t l)).length ≤ countOf t l
  have h1 : (dedupFirst (rawSources t l)).length ≤ (rawSources t l).length :=
    length_dedupFirst_le _
  have h2 : (rawSources t l).length = countOf t l := by
    simp [rawSources, countOf]
  exact h1.trans_eq h2

/-- A fact repeated twice from the same source. -/
def lC3 : List ExtractedFact := [⟨"x", "s"⟩, ⟨"x", "s"⟩]

/-- Concrete instance of `merge_sources_bound`: the repeated fact's single
deduplicated source against its occurrence count 2. -/
theorem merge_sources_bound_witness :
    (⟨"x", ["s"], "high"⟩ : MergedFact).sources.Nodup ∧
    (⟨"x", ["s"], "high"⟩ : MergedFact).sources.length ≤ countOf "x" lC3 :=
  merge_sources_bound lC3 ⟨"x", ["s"], "high"⟩ (by decide)

/-- A retrieved search result (a `{"title", "url", "snippet"}` dict);
`url` is `none` when the dict has no `"url"` key. -/
structure SearchResult where
  title : String
  url : Option String
  snippet : String
deriving DecidableEq, Repr

/-- `r.get("url", "")` of `validate`. -/
def getUrl (r : SearchResult) : String := r.url.getD ""

/-- WHATWG C0 control or space, stripped from the left end of a URL by
`urlsplit`. -/
def isC0OrSpace (c : Char) : Bool := c.toNat ≤ 32

/-- The bytes `urlsplit` deletes anywhere in a URL: tab, CR, LF. -/
def isUnsafeUrlByte (c : Char) : Bool := c == '\t' || c == '\r' || c == '\n'

/-- `urlsplit`'s input cleanup: strip leading C0 controls and spaces,
then delete every tab, CR and LF. -/
def cleanUrl (l : List Char) : List Char :=
  (l.dropWhile isC0OrSpace).filter (fun c => !isUnsafeUrlByte c)

/-- A character allowed in a URL scheme after its first character. -/
def schemeChar (c : Char) : Bool := c.isAlphanum || c == '+' || c == '-' || c == '.'

/-- Remove a leading `scheme:` the way `urlsplit` does: the part before
the first colon must be non-empty, start with an ASCII letter and consist
of scheme characters; otherwise the URL is left alone. -/
def dropScheme (l : List Char) : List Char :=
  match l.takeWhile (fun c => c != ':') with
  | [] => l
  | c :: rest =>
    if rest.length + 1 < l.length && c.isAlpha && rest.all schemeChar then
      l.drop (rest.length + 2)
    else l

/-- The network location of a cleaned URL: present only after `//` and
running up to the next `/`, `?` or `#`; empty otherwise. -/
def netlocOf (l : List Char) : List Char :=
  match dropScheme l with
  | '/' :: '/' :: rest => rest.takeWhile (fun c => c != '/' && c != '?' && c != '#')
  | _ => []

/-- `urlparse(url).netloc` as a character list. -/
def netloc (url : String) : List Char := netlocOf (cleanUrl url.data)

/-- Python's `domain.replace("www.", "")`: delete every occurrence of
`www.`, scanning left to right without overlap. -/
def removeWWW : List Char → List Char
  | 'w' :: 'w' :: 'w' :: '.' :: rest => removeWWW rest
  | c :: rest => c :: removeWWW rest
  | [] => []

/-- Python's `needle in hay` on strings: substring occurrence. -/
def hasSub (needle : List Char) : List Char → Bool
  | [] => needle.isEmpty
  | c :: t => needle.isPrefixOf (c :: t) || hasSub needle t

/-- The broad trust policy `ALLOWED_DOMAINS` of
`src/ai/validator/validate_sources.py`, in source order. -/
def ALLOWED_DOMAINS : List String :=
  ["developer.mozilla.org", "w3.org", "whatwg.org", "python.org",
   "docs.python.org", "php.net", "ruby-lang.org", "golang.org",
   "rust-lang.org", "nodejs.org", "nextjs.org", "react.dev", "vuejs.org",
   "angular.io", "vercel.com", "firebase.google.com", "aws.amazon.com",
   "cloud.google.com", "docs.microsoft.com", "kubernetes.io", "docker.com",
   "terraform.io", "ansible.com", "chef.io", "pypi.org", "npmjs.com",
   "rubygems.org", "packagist.org", "crates.io", "owasp.org",
   "nvd.nist.gov", "cve.mitre.org", "github.com", "gitlab.com"]

/-- The admission test of `validate`: some allowed domain occurs in the
URL's netloc after every `www.` has been deleted. -/
def admitted (r : SearchResult) : Bool :=
  ALLOWED_DOMAINS.any (fun a => hasSub a.data (removeWWW (netloc (getUrl r))))

/-- `validate` from `src/ai/validator/validate_sources.py`. -/
def validate (results : List SearchResult) : List SearchResult :=
  results.filter admitted

theorem isPrefixOf_eq_true_iff (n : List Char) :
    ∀ h : List Char, n.isPrefixOf h = true ↔ ∃ q, h = n ++ q := by
  induction n with
  | nil =>
    intro h
    constructor
    · intro _; exact ⟨h, rfl⟩
    · intro _; cases h <;> rfl
  | cons c nt ih =>
    intro h
    cases h with
    | nil =>
      constructor
      · intro hpre; cases hpre
      · rintro ⟨q, hq⟩; cases hq
    | cons d t =>
      rw [show ((c :: nt).isPrefixOf (d :: t)) = (c == d && nt.isPrefixOf t) from rfl,
        Bool.and_eq_true, beq_iff_eq, ih t]
      constructor
      · rintro ⟨rfl, q, rfl⟩; exact ⟨q, rfl⟩
      · rintro ⟨q, hq⟩
        injection hq with h1 h2
        exact ⟨h1.symm, q, h2⟩

theorem hasSub_iff (n : List Char) :
    ∀ h : List Char, hasSub n h = true ↔ ∃ p q, h = p ++ n ++ q := by
  intro h
  induction h with
  | nil =>
    show n.isEmpty = true ↔ _
    rw [List.isEmpty_iff]
    constructor
    · rintro rfl; exact ⟨[], [], rfl⟩
    · rintro ⟨p, q, hpq⟩
      rcases List.append_eq_nil.mp hpq.symm with ⟨h1, h2⟩
      exact (List.append_eq_nil.mp h1).2
  | cons c t ih =>
    show (n.isPrefixOf (c :: t) || hasSub n t) = true ↔ _
    rw [Bool.or_eq_true, isPrefixOf_eq_true_iff, ih]
    constructor
    · rintro (⟨q, hq⟩ | ⟨p, q, hq⟩)
      · exact ⟨[], q, by simpa using hq⟩
      · exact ⟨c :: p, q, by simpa using hq⟩
    · rintro ⟨p, q, hpq⟩
      cases p with
      | nil => exact Or.inl ⟨q, by simpa using hpq⟩
      | cons d p =>
        rw [List.cons_append, List.cons_append] at hpq
        injection hpq with h1 h2
        exact Or.inr ⟨p, q, h2⟩

/-- C7: `validate` is idempotent. -/
theorem validate_idem (x : List SearchResult) :
    validate (validate x) = validate x := by
  simp [validate, List.filter_filter]

/-- A two-element input list: one trusted documentation URL, one
untrusted blog URL. -/
def xC7 : List SearchResult :=
  [⟨"MDN", some "https://developer.mozilla.org/en-US/", "m"⟩,
   ⟨"Blog", some "https://evil-blog.net/post", "b"⟩]

/-- Concrete instance of `validate_idem`. -/
theorem validate_idem_witness : validate (validate xC7) = validate xC7 :=
  validate_idem xC7

/-- C8: the output of `validate` is a subsequence of its input preserving
relative order, made of the very same elements — so every admitted
result's `title`, `url` and `snippet` are those of the corresponding
input element, unmutated and with no URL normalization. -/
theorem validate_sublist_of_input (results : List SearchResult) :
    List.Sublist (validate results) results :=
  List.filter_sublist results

/-- Concrete instance of `validate_sublist_of_input`. -/
theorem validate_sublist_witness : List.Sublist (validate xC7) xC7 :=
  validate_sublist_of_input xC7

/-- C10: a result whose dict lacks a `"url"` key is handled totally:
`r.get("url", "")` yields the empty URL, the trust test fails, and the
result never reaches the output. -/
theorem validate_missing_url (results : List SearchResult) (r : SearchResult)
    (h : r.url = none) : admitted r = false ∧ r ∉ validate results := by
  have hurl : getUrl r = "" := by simp [getUrl, h]
  have hadm : admitted r = false := by
    unfold admitted
    rw [hurl]
    decide
  refine ⟨hadm, fun hmem => ?_⟩
  have hmem' : r ∈ results.filter admitted := hmem
  have htrue := (List.mem_filter.mp hmem').2
  rw [hadm] at htrue
  exact Bool.false_ne_true htrue

/-- A search result with no `"url"` key. -/
def rNoUrl : SearchResult := ⟨"no url key", none, "s"⟩

/-- Concrete instance of `validate_missing_url`. -/
theorem validate_missing_url_witness :
    admitted rNoUrl = false ∧ rNoUrl ∉ validate [rNoUrl] :=
  validate_missing_url [rNoUrl] rNoUrl rfl

/-- Modelled from the spec's words, for comparison with the code: strip
only a LEADING `www.` from the host. -/
def stripLeadingWWW (h : List Char) : List Char :=
  if ("www.".data).isPrefixOf h then h.drop 4 else h

/-- The admission rule the specification describes: the host with a
leading `www.` stripped must contain an allowed domain as a substring. -/
def specAdmits (r : SearchResult) : Bool :=
  ALLOWED_DOMAINS.any (fun a => hasSub a.data (stripLeadingWWW (netloc (getUrl r))))

/-- A URL whose host contains `www.` in the middle: deleting it fuses the
surrounding characters into `python.org.evil.com`. -/
def rC4 : SearchResult := ⟨"t", some "https://pythwww.on.org.evil.com/x", "s"⟩

/-- C4 counterexample: `validate` admits `rC4` (the code deletes every
occurrence of `www.`, so the host becomes `python.org.evil.com` and
matches `python.org`), yet the host with only a leading `www.` stripped
contains no trust-policy domain, so the claim's rule says reject. -/
theorem validate_claim_counterexample :
    admitted rC4 = true ∧ specAdmits rC4 = false ∧ validate [rC4] = [rC4] := by
  refine ⟨by decide, by decide, by decide⟩

/-- C4 amended: `validate` admits a result iff the URL's netloc, after
deleting EVERY occurrence of `www.`, contains some trust-policy domain
as a substring; all other results are rejected. -/
theorem validate_mem_iff (results : List SearchResult) (r : SearchResult) :
    r ∈ validate results ↔
      r ∈ results ∧ ∃ a, a ∈ ALLOWED_DOMAINS ∧
        ∃ p q, removeWWW (netloc (getUrl r)) = p ++ a.data ++ q := by
  constructor
  · intro h
    have h' : r ∈ results.filter admitted := h
    obtain ⟨hr, hadm⟩ := List.mem_filter.mp h'
    have hadm' : ALLOWED_DOMAINS.any
        (fun a => hasSub a.data (removeWWW (netloc (getUrl r)))) = true := hadm
    obtain ⟨a, ha, hsub⟩ := List.any_eq_true.mp hadm'
    obtain ⟨p, q, hpq⟩ := (hasSub_iff a.data _).mp hsub
    exact ⟨hr, a, ha, p, q, hpq⟩
  · rintro ⟨hr, a, ha, p, q, hpq⟩
    have hadm : admitted r = true := by
      unfold admitted
      exact List.any_eq_true.mpr ⟨a, ha, (hasSub_iff a.data _).mpr ⟨p, q, hpq⟩⟩
    exact List.mem_filter.mpr ⟨hr, hadm⟩

/-- Python `str.isspace` over the characters it recognises: ASCII
whitespace, the C0 separators 0x1c-0x1f, and the Unicode space
characters. -/
def pySpace (c : Char) : Bool :=
  let n := c.toNat
  (9 ≤ n && n ≤ 13) || (28 ≤ n && n ≤ 31) || n == 32 || n == 0x85 ||
    n == 0xa0 || n == 0x1680 || (0x2000 ≤ n && n ≤ 0x200a) || n == 0x2028 ||
    n == 0x2029 || n == 0x202f || n == 0x205f || n == 0x3000

/-- Python `str.strip()`: drop whitespace from both ends. -/
def pyStrip (l : List Char) : List Char :=
  ((l.dropWhile pySpace).reverse.dropWhile pySpace).reverse

/-- A line boundary recognised by Python `str.splitlines`. -/
def lineBreakChar (c : Char) : Bool :=
  let n := c.toNat
  n == 10 || n == 13 || n == 11 || n == 12 || n == 28 || n == 29 ||
    n == 30 || n == 0x85 || n == 0x2028 || n == 0x2029

/-- Python `str.splitlines`: `cur` accumulates the current line in
reverse; `\r\n` counts as one boundary and a trailing boundary opens no
empty final line. -/
def splitLinesAux : List Char → List Char → List (List Char)
  | [], cur => if cur.isEmpty then [] else [cur.reverse]
  | '\r' :: '\n' :: t, cur => cur.reverse :: splitLinesAux t []
  | c :: t, cur =>
    if lineBreakChar c then cur.reverse :: splitLinesAux t []
    else splitLinesAux t (c :: cur)

/-- The lines of the capability's output text. -/
def splitLines (content : String) : List (List Char) :=
  splitLinesAux content.data []

/-- The pure post-processing of `normalize` in
`src/ai/normalize/normalize.py`, as a function of the generative
capability's output text: keep each line whose `strip()` is non-empty,
paired unchanged with the source. -/
def normalizeFacts (content : String) (source : String) : List ExtractedFact :=
  ((splitLines content).filter (fun f => !(pyStrip f).isEmpty)).map
    (fun f => ⟨⟨f⟩, source⟩)

theorem pyStrip_nonempty {l : List Char} (h : ¬((pyStrip l).isEmpty = true)) :
    ∃ c, c ∈ l ∧ pySpace c = false := by
  by_contra hall
  push_neg at hall
  have hspace : ∀ c ∈ l, pySpace c = true := by
    intro c hc
    cases hcb : pySpace c with
    | true => rfl
    | false => exact absurd hcb (hall c hc)
  have hdrop : l.dropWhile pySpace = [] := List.dropWhile_eq_nil_iff.mpr hspace
  apply h
  simp [pyStrip, hdrop]

/-- C9: every fact emitted by `normalize` has non-empty text that is not
whitespace-only: blank lines of the capability's output never become
facts. -/
theorem normalize_no_blank_facts (content source : String) (f : ExtractedFact)
    (h : f ∈ normalizeFacts content source) :
    f.fact ≠ "" ∧ ∃ c, c ∈ f.fact.data ∧ pySpace c = false := by
  obtain ⟨line, hline, rfl⟩ := List.mem_map.mp h
  obtain ⟨hmem, hkeep⟩ := List.mem_filter.mp hline
  have hkeep' : ¬((pyStrip line).isEmpty = true) := by
    intro hx
    rw [hx] at hkeep
    cases hkeep
  obtain ⟨c, hc, hcs⟩ := pyStrip_nonempty hkeep'
  constructor
  · intro hempty
    have : line = [] := congrArg String.data hempty
    rw [this] at hc
    cases hc
  · exact ⟨c, hc, hcs⟩

/-- A capability output with a blank line and a whitespace-only line. -/
def contentC9 : String := "Fact one\n\n   \nFact two"

/-- Concrete instance of `normalize_no_blank_facts`: the first fact of
the sample output is non-blank. -/
theorem normalize_no_blank_facts_witness :
    (⟨"Fact one", "src"⟩ : ExtractedFact).fact ≠ "" ∧
    ∃ c, c ∈ (⟨"Fact one", "src"⟩ : ExtractedFact).fact.data ∧ pySpace c = false :=
  normalize_no_blank_facts contentC9 "src" ⟨"Fact one", "src"⟩ (by decide)

/-- An uncaught Python exception aborting the run (for example
`requests.exceptions.HTTPError` raised by `raise_for_status`). -/
structure Fault where
  msg : String
deriving DecidableEq, Repr

/-- The final report `{"topic": ..., "facts": ...}` of `run_rag.py`. -/
structure Report where
  topic : String
  facts : List MergedFact
deriving DecidableEq, Repr

/-- The orchestrator loop of `src/ai/orchestrator/run_rag.py`, with the
external search and extractor capabilities passed as functions and an
uncaught exception modelled as `Except.error`: for each query in order,
`validate(search(q))`, then extract one fact list per validated result;
a fault anywhere aborts the whole loop. -/
def runQueries (searchFn : String → Except Fault (List SearchResult))
    (extractFn : String → String → List ExtractedFact) :
    List String → Except Fault (List ExtractedFact)
  | [] => Except.ok []
  | q :: qs =>
    match searchFn q with
    | Except.error e => Except.error e
    | Except.ok results =>
      match runQueries searchFn extractFn qs with
      | Except.error e => Except.error e
      | Except.ok rest =>
        Except.ok (((validate results).flatMap
          (fun r => extractFn r.snippet (getUrl r))) ++ rest)

/-- The pipeline after query planning: run every query, then merge the
accumulated facts once into the report. -/
def runRag (searchFn : String → Except Fault (List SearchResult))
    (extractFn : String → String → List ExtractedFact)
    (topic : String) (queries : List String) : Except Fault Report :=
  match runQueries searchFn extractFn queries with
  | Except.error e => Except.error e
  | Except.ok facts => Except.ok ⟨topic, merge facts⟩

/-- A search capability that faults (transport error) on `"q1"` and
returns one trusted result for any other query. -/
def failSearch : String → Except Fault (List SearchResult) :=
  fun q =>
    if q = "q1" then Except.error ⟨"HTTPError"⟩
    else Except.ok
      [⟨"Python docs", some "https://docs.python.org/3/", "CPython 3 documentation"⟩]

/-- An extractor capability returning the snippet itself as one fact. -/
def constExtract : String → String → List ExtractedFact :=
  fun snippet source => [⟨snippet, source⟩]

/-- C6: an empty query plan causes zero retrieval or extraction
iterations and yields, without an error, the report carrying the input
topic and an empty fact list. -/
theorem runRag_empty_queries
    (searchFn : String → Except Fault (List SearchResult))
    (extractFn : String → String → List ExtractedFact) (topic : String) :
    runRag searchFn extractFn topic [] = Except.ok ⟨topic, []⟩ := rfl

/-- Concrete instance of `runRag_empty_queries`. -/
theorem runRag_empty_queries_witness :
    runRag failSearch constExtract "Next.js" [] = Except.ok ⟨"Next.js", []⟩ :=
  runRag_empty_queries failSearch constExtract "Next.js"

/-- C5 counterexample: the fault on `"q1"` aborts the whole run — the
pipeline returns the error and produces no report — although the other
query alone would have succeeded; the code catches nothing, so nothing is
logged or skipped and the remaining queries are never processed. -/
theorem retrieval_fault_counterexample :
    failSearch "q1" = Except.error ⟨"HTTPError"⟩ ∧
    runRag failSearch constExtract "t" ["q1", "q2"] = Except.error ⟨"HTTPError"⟩ ∧
    runRag failSearch constExtract "t" ["q2"] =
      Except.ok ⟨"t", [⟨"CPython 3 documentation",
        ["https://docs.python.org/3/"], "medium"⟩]⟩ := by
  refine ⟨rfl, rfl, rfl⟩

/-- C5 amended: a transport or authentication fault while searching one
query is not contained: when every query before `q` succeeds and `q`
faults, the run aborts with that fault and no report is produced,
whatever queries remain after `q`. -/
theorem retrieval_fault_aborts_run
    (searchFn : String → Except Fault (List SearchResult))
    (extractFn : String → String → List ExtractedFact)
    (topic : String) (pre rest : List String) (q : String) (e : Fault)
    (hq : searchFn q = Except.error e)
    (hpre : ∀ p, p ∈ pre → ∃ v, searchFn p = Except.ok v) :
    runRag searchFn extractFn topic (pre ++ q :: rest) = Except.error e := by
  have hrun : ∀ pr : List String, (∀ p, p ∈ pr → ∃ v, searchFn p = Except.ok v) →
      runQueries searchFn extractFn (pr ++ q :: rest) = Except.error e := by
    intro pr
    induction pr with
    | nil => intro _; simp [runQueries, hq]
    | cons p ps ih =>
      intro hp
      obtain ⟨v, hv⟩ := hp p (List.mem_cons_self p ps)
      have ih' := ih (fun x hx => hp x (List.mem_cons_of_mem p hx))
      simp [runQueries, hv, ih']
  have h2 := hrun pre hpre
  simp [runRag, h2]

/-- Concrete instance of `retrieval_fault_aborts_run`: `"q2"` succeeds
first, then the fault on `"q1"` aborts the run. -/
theorem retrieval_fault_aborts_run_witness :
    runRag failSearch constExtract "t" (["q2"] ++ "q1" :: []) =
      Except.error ⟨"HTTPError"⟩ :=
  retrieval_fault_aborts_run failSearch constExtract "t" ["q2"] [] "q1"
    ⟨"HTTPError"⟩ rfl
    (by
      intro p hp
      simp only [List.mem_singleton] at hp
      subst hp
      exact ⟨_, rfl⟩)
